import Mathlib

/-!
Verification development for the Patent2SDG semantic graph-assembly and
clustering engine.

The Python sources embedded here are:
* nodes/opportunity_node.py  — pairwise similarity clustering with a
  subset-dominance filter and centroid computation,
* app.py                     — document/taxonomy top-K linking, pairwise
  document linking, and the flagship (startup) cluster selection,
* utils/narrative_generator.py — keyword extraction and narrative composition.

External library calls are modelled as explicit function parameters:
* sklearn's cosine_similarity is a parameter cos : List ℚ → List ℚ → ℚ
  (floating point arithmetic is idealised over the rationals; cosine is
  symmetric, which is taken as a hypothesis where a proof needs it);
* sklearn's TfidfVectorizer.fit_transform is a parameter
  tfidf : List String → Except String (List (String × ℚ)) returning the
  (feature, summed score) rows, failing — as the library does — when the
  vocabulary is empty;
* numpy's argsort is modelled as the canonical stable ascending index sort
  (ties keep the original index order);
* Python's random.choice over the four narrative templates is a parameter
  choice : ℕ selecting templates[choice % 4];
* the Python-regex text cleaner clean_text is a parameter
  clean : String → String (no claim depends on its output).

Dictionaries are modelled as insertion-ordered association lists with
list-of-keys Nodup hypotheses where key uniqueness matters.
-/

namespace Patent2SDG

variable {α : Type} [DecidableEq α]

/-- Model of itertools.combinations(xs, 2): all unordered pairs of elements,
in the source order (earlier element first). -/
def combinations2 {β : Type} : List β → List (β × β)
  | [] => []
  | x :: xs => (xs.map fun y => (x, y)) ++ combinations2 xs

/-- Dot product of two rational vectors. For unit-norm vectors this equals
their cosine similarity, so it serves as a concrete cosine instance in
witnesses and counterexamples. -/
def dotQ (u v : List ℚ) : ℚ := (List.zipWith (fun a b => a * b) u v).sum

/-!
## Opportunity clustering (opportunity_node.py, generate_shared_opportunity_nodes)
-/

/-- Model of an OpportunityNode as produced by
generate_shared_opportunity_nodes: id, label and centroid embedding. -/
structure OpportunityNode where
  id : String
  label : String
  embedding : List ℚ
deriving DecidableEq

/-- Member set of a candidate pair of (id, embedding) entries: the Python
set([k1, k2]). -/
def pairSet (kv : (α × List ℚ) × (α × List ℚ)) : Finset α := {kv.1.1, kv.2.1}

/-- One step of the group-accumulation loop of
generate_shared_opportunity_nodes: for a pair of (id, embedding) entries
whose similarity clears the threshold, accept the two-element group unless
its member set is a subset of an already accepted group's member set. The
accepted pair is kept so the member embeddings stay available; its member
set is pairSet. -/
def groupStep (cos : List ℚ → List ℚ → ℚ) (threshold : ℚ)
    (groups : List ((α × List ℚ) × (α × List ℚ))) (kv : (α × List ℚ) × (α × List ℚ)) :
    List ((α × List ℚ) × (α × List ℚ)) :=
  if threshold ≤ cos kv.1.2 kv.2.2 then
    if groups.any (fun g => pairSet kv ⊆ pairSet g) then groups
    else groups ++ [kv]
  else groups

/-- The accepted groups of generate_shared_opportunity_nodes: fold the
acceptance step over all unordered pairs of the (insertion-ordered)
embedding dictionary. -/
def sharedGroups (cos : List ℚ → List ℚ → ℚ) (threshold : ℚ)
    (pe : List (α × List ℚ)) : List ((α × List ℚ) × (α × List ℚ)) :=
  (combinations2 pe).foldl (groupStep cos threshold) []

/-- Dictionary lookup patent_embeddings[pid], as an association-list lookup
(first entry with the key; the dictionary has unique keys). -/
def lookupD (pe : List (α × List ℚ)) (k : α) : List ℚ :=
  match pe.find? (fun p => p.1 = k) with
  | some p => p.2
  | none => []

/-- Model of np.mean(vecs, axis=0) on a non-empty list of equal-length
vectors: element-wise sum divided by the number of vectors. -/
def vecMean (vs : List (List ℚ)) : List ℚ :=
  match vs with
  | [] => []
  | v :: rest =>
    (rest.foldl (fun acc w => List.zipWith (fun a b => a + b) acc w) v).map
      (fun x => x / ((v :: rest).length : ℚ))

/-- Member embeddings of an accepted group, as looked up in the embedding
dictionary (the Python [patent_embeddings[pid] for pid in group]; the set
iteration order does not affect the mean). -/
def memberVecs (pe : List (α × List ℚ)) (kv : (α × List ℚ) × (α × List ℚ)) : List (List ℚ) :=
  if kv.1.1 = kv.2.1 then [lookupD pe kv.1.1]
  else [lookupD pe kv.1.1, lookupD pe kv.2.1]

/-- Model of OpportunityNode.generate_shared_opportunity_nodes: returns the
opportunity nodes (with 1-based ids in discovery order and centroid
embeddings) and the connections map from opportunity id to member set. -/
def generate_shared_opportunity_nodes (cos : List ℚ → List ℚ → ℚ) (threshold : ℚ)
    (pe : List (α × List ℚ)) : List OpportunityNode × List (String × Finset α) :=
  let groups := sharedGroups cos threshold pe
  (groups.enum.map (fun ig =>
    { id := "OPPORTUNITY_" ++ toString (ig.1 + 1)
      label := "Shared Opportunity " ++ toString (ig.1 + 1) ++ " (" ++ toString (pairSet ig.2).card ++ " patents)"
      embedding := vecMean (memberVecs pe ig.2) }),
   groups.enum.map (fun ig => ("OPPORTUNITY_" ++ toString (ig.1 + 1), pairSet ig.2)))

/-!
## Document-document linking (app.py, Classify and Display Graph handler)
-/

/-- Model of the document-document linking loop of app.py: for every
unordered pair of documents, add an edge carrying the cosine similarity as
weight when the similarity is strictly greater than the threshold (the
source compares sim > 0.75). Graph node ids prefix each document id with
"PATENT_"; the edge list here carries the raw document ids. -/
def link_similar_documents (cos : List ℚ → List ℚ → ℚ) (threshold : ℚ)
    (pe : List (α × List ℚ)) : List ((α × α) × ℚ) :=
  (combinations2 pe).filterMap (fun kv =>
    if threshold < cos kv.1.2 kv.2.2 then some ((kv.1.1, kv.2.1), cos kv.1.2 kv.2.2)
    else none)

/-!
## Flagship selection (app.py, patents_for_startup)
-/

/-- Model of Python's max(opp_links, key=lambda k: len(opp_links[k])) over
an insertion-ordered map: scan keeping the current maximum, replacing it
only on a strictly larger member count, so the first maximum wins. -/
def maxByLen (links : List (String × Finset α)) : Option (String × Finset α) :=
  match links with
  | [] => none
  | x :: xs => some (xs.foldl (fun best p => if best.2.card < p.2.card then p else best) x)

/-- Model of the flagship selection in app.py: the member set of the
largest cluster when the membership map is non-empty, otherwise the full
set of document ids of the batch. -/
def patents_for_startup (links : List (String × Finset α))
    (pe : List (α × List ℚ)) : Finset α :=
  match maxByLen links with
  | some m => m.2
  | none => (pe.map Prod.fst).toFinset

/-!
## Top-K taxonomy selection (app.py, per-document loop)
-/

/-- Index order used to model numpy's stable ascending argsort: index i
precedes index j when its score is smaller, or on equal scores when
i ≤ j (ties keep the original index order). -/
def rIdx (sims : List ℚ) (i j : ℕ) : Prop :=
  sims.getD i 0 < sims.getD j 0 ∨ (sims.getD i 0 = sims.getD j 0 ∧ i ≤ j)

instance (sims : List ℚ) : DecidableRel (rIdx sims) := fun i j => by
  unfold rIdx; infer_instance

/-- Model of sims.argsort(): the indices of sims sorted ascending by
score, ties by index. -/
def argsortAsc (sims : List ℚ) : List ℕ :=
  List.insertionSort (rIdx sims) (List.range sims.length)

/-- Model of sims.argsort()[::-1][:k] from app.py: reverse the ascending
argsort and keep the first k indices. -/
def top_indices (sims : List ℚ) (k : ℕ) : List ℕ :=
  ((argsortAsc sims).reverse).take k

/-- Model of the per-document taxonomy linking loop of app.py: compute the
similarity of the document embedding against every taxonomy embedding,
select top_indices, and emit one (taxonomy id, weight) edge per selected
index with the un-clamped similarity as weight. -/
def attach_document_edges (cos : List ℚ → List ℚ → ℚ) (emb : List ℚ)
    (tx : List (String × List ℚ)) (k : ℕ) : List (String × ℚ) :=
  (top_indices (tx.map (fun t => cos emb t.2)) k).map
    (fun i => ((tx.getD i ("", [])).1, (tx.map (fun t => cos emb t.2)).getD i 0))

/-- Selection written from the specification's words, for comparison with
the source model: top-K by score descending with ties broken by taxonomy
insertion order (lower index first). -/
def rIdxSpecOrder (sims : List ℚ) (i j : ℕ) : Prop :=
  sims.getD j 0 < sims.getD i 0 ∨ (sims.getD i 0 = sims.getD j 0 ∧ i ≤ j)

instance (sims : List ℚ) : DecidableRel (rIdxSpecOrder sims) := fun i j => by
  unfold rIdxSpecOrder; infer_instance

/-- Spec-side top-K: descending by score, ties by insertion order. -/
def topKByInsertionOrder (sims : List ℚ) (k : ℕ) : List ℕ :=
  (List.insertionSort (rIdxSpecOrder sims) (List.range sims.length)).take k

/-!
## Narrative synthesis (narrative_generator.py)
-/

/-- Test used by the sentence splitter: the previous character (head of the
reversed accumulator) is a sentence terminator. -/
def endsPunct (acc : List Char) : Bool :=
  match acc with
  | [] => false
  | c :: _ => c = '.' || c = '!' || c = '?'

mutual

/-- Sentence-accumulating state of the splitter modelling
re.split((?<=[.!?])\s+, text): a whitespace character directly after a
sentence terminator flushes the current sentence. -/
def goSent : List Char → List Char → List (List Char)
  | [], acc => [acc.reverse]
  | c :: cs, acc =>
    if c.isWhitespace && endsPunct acc then acc.reverse :: goSep cs
    else goSent cs (c :: acc)

/-- Separator-consuming state of the splitter: skip the whitespace run,
then start the next sentence. -/
def goSep : List Char → List (List Char)
  | [] => [[]]
  | c :: cs => if c.isWhitespace then goSep cs else goSent cs [c]

end

/-- Model of re.split((?<=[.!?])\s+, text) from summarize_text. -/
def splitSentences (text : String) : List String :=
  (goSent text.toList []).map List.asString

/-- Model of summarize_text: keep sentences longer than 40 characters with
no digit, in order, capped at maxSentences; if none qualify fall back to
the first 300 characters. -/
def summarize_text (text : String) (maxSentences : ℕ) : String :=
  let good := (splitSentences text).filter
    (fun s => decide (40 < s.length) && !(s.toList.any Char.isDigit))
  if good = [] then (text.toList.take 300).asString
  else String.intercalate " " (good.take maxSentences)

/-- The fixed domain stopword list of extract_keywords. -/
def narrativeStopwords : List String :=
  ["development", "technology", "system", "method", "device",
   "approach", "solution", "innovation", "data", "information",
   "application", "product", "field", "based", "process", "unit"]

/-- Model of extract_keywords: run the TF-IDF vectorizer (library call,
passed as a parameter; it fails on an empty vocabulary), sort the
(feature, score) rows by score descending, drop domain stopwords, tokens
of length ≤ 3 and non-alphabetic tokens, and keep the first maxKeywords. -/
def extract_keywords (tfidf : List String → Except String (List (String × ℚ)))
    (texts : List String) (maxKeywords : ℕ) : Except String (List String) :=
  match tfidf texts with
  | Except.error e => Except.error e
  | Except.ok kws =>
    Except.ok ((((List.insertionSort (fun p q : String × ℚ => q.2 ≤ p.2) kws).map
      Prod.fst).filter
      (fun kw => !(narrativeStopwords.contains kw) && decide (3 < kw.length)
        && kw.toList.all Char.isAlpha)).take maxKeywords)

/-- Model of compose_description: the fixed generic fallback sentence when
no keywords survive, otherwise one of the four narrative templates
(random.choice modelled by the index choice % 4). -/
def compose_description (choice : ℕ) (summary : String) (keywords : List String) : String :=
  if keywords = [] then
    "This innovation addresses sustainability challenges through a novel approach. Summary: " ++ summary
  else
    [("This solution targets " ++ keywords.getD 0 "" ++ " and " ++ keywords.getD 1 "technology"
        ++ ", enhancing real-world performance and impact. It improves " ++ keywords.getD 2 "impact"
        ++ " and aligns with SDGs. Summary: " ++ summary),
     ("A novel advancement in " ++ keywords.getD 0 "" ++ " and " ++ keywords.getD 1 "technology"
        ++ ", this innovation offers practical benefits for " ++ keywords.getD 2 "impact"
        ++ ". It supports sustainability goals through technology integration. Summary: " ++ summary),
     ("Focused on " ++ keywords.getD 0 "" ++ " applications combined with " ++ keywords.getD 1 "technology"
        ++ ", the system introduces improvements in " ++ keywords.getD 2 "impact"
        ++ ". This contributes to the Sustainable Development Goals. Summary: " ++ summary),
     ("This work combines " ++ keywords.getD 0 "" ++ " and " ++ keywords.getD 1 "technology"
        ++ " to address emerging challenges in " ++ keywords.getD 2 "impact"
        ++ ". It supports innovation aligned with global SDG priorities. Summary: " ++ summary)].getD (choice % 4) ""

/-- Character-level model of Python str.title(): uppercase an alphabetic
character after a non-alphabetic one, lowercase the rest. -/
def titleChars : List Char → Bool → List Char
  | [], _ => []
  | c :: cs, prevAlpha =>
    (if c.isAlpha then (if prevAlpha then c.toLower else c.toUpper) else c) :: titleChars cs c.isAlpha

/-- Model of Python str.title(). -/
def titleStr (s : String) : String := (titleChars s.toList false).asString

/-- Model of describe_opportunity, returning the Name and Description
fields of the emitted block: clean every text (regex cleaner passed as a
parameter), summarize the concatenation, extract keywords from the cleaned
texts, and build the name (title-cased top-2 keywords joined by " + ", or
the fixed fallback) and the composed description. A TF-IDF failure
propagates, as the uncaught ValueError does in the source. -/
def describe_opportunity (clean : String → String)
    (tfidf : List String → Except String (List (String × ℚ)))
    (choice : ℕ) (patentTexts : List String) : Except String (String × String) :=
  let cleaned := patentTexts.map clean
  let summary := summarize_text (String.intercalate " " cleaned) 3
  match extract_keywords tfidf cleaned 5 with
  | Except.error e => Except.error e
  | Except.ok keywords =>
    Except.ok
      (if keywords = [] then "Sustainable Opportunity"
       else String.intercalate " + " ((keywords.take 2).map titleStr),
       compose_description choice summary keywords)

/-- Word characters of the default sklearn token pattern. -/
def isWordChar (c : Char) : Bool := c.isAlphanum || c = '_'

/-- Tokenizer run of the concrete TF-IDF stand-in: maximal word-character
runs of length at least 2, lowercased. -/
def tokensAux : List Char → List Char → List String
  | [], cur => if 2 ≤ cur.length then [((cur.reverse).map Char.toLower).asString] else []
  | c :: cs, cur =>
    if isWordChar c then tokensAux cs (c :: cur)
    else (if 2 ≤ cur.length then [((cur.reverse).map Char.toLower).asString] else []) ++ tokensAux cs []

/-- Tokens of one document for the concrete TF-IDF stand-in. -/
def sklearnTokens (s : String) : List String := tokensAux s.toList []

/-- Concrete stand-in for TfidfVectorizer.fit_transform used to instantiate
the tfidf parameter in witnesses: it fails with the library's empty
vocabulary error when no token occurs in the texts (in particular on an
empty document list), and otherwise scores each vocabulary word by its
total occurrence count (a simple stand-in for the summed TF-IDF weights). -/
def tfidfModel (texts : List String) : Except String (List (String × ℚ)) :=
  let toks := (texts.map sklearnTokens).flatten
  if toks.dedup = [] then
    Except.error "empty vocabulary; perhaps the documents only contain stop words"
  else Except.ok (toks.dedup.map (fun w => (w, (toks.count w : ℚ))))

/-!
## Concrete instances used by witnesses and counterexamples
-/

/-- Concrete cosine table realising the three-document scenario of the
specification: sim(A,B) = 0.4, sim(B,C) = 0.4, sim(A,C) = 0.1, with the
documents carried by the marker embeddings [1], [2], [3]. -/
def cosScenario3 (u v : List ℚ) : ℚ :=
  if (u = [1] ∧ v = [2]) ∨ (u = [2] ∧ v = [1]) then mkRat 2 5
  else if (u = [2] ∧ v = [3]) ∨ (u = [3] ∧ v = [2]) then mkRat 2 5
  else if (u = [1] ∧ v = [3]) ∨ (u = [3] ∧ v = [1]) then mkRat 1 10
  else 1

/-- Unit vector whose cosine similarity (dot product) with vBoundary is
exactly 3/4. -/
def uBoundary : List ℚ := [1, 0, 0, 0, 0]

/-- Unit vector whose cosine similarity (dot product) with uBoundary is
exactly 3/4. -/
def vBoundary : List ℚ := [3/4, 1/2, 1/4, 1/4, 1/4]

/-- Six-entry taxonomy with distinct ids, used to exhibit the tie-breaking
behaviour of the top-K selection. -/
def txSix : List (String × List ℚ) :=
  [("T0", []), ("T1", []), ("T2", []), ("T3", []), ("T4", []), ("T5", [])]

/-!
## Helper lemmas
-/

/-- Membership in combinations2 is exactly being a two-element sublist (a
pair taken in the list order). -/
theorem mem_combinations2 {β : Type} {l : List β} {p : β × β} :
    p ∈ combinations2 l ↔ [p.1, p.2].Sublist l := by
  induction l with
  | nil => simp [combinations2]
  | cons x xs ih =>
    simp only [combinations2, List.mem_append, List.mem_map]
    rw [List.cons_sublist_cons']
    constructor
    · rintro (⟨y, hy, rfl⟩ | h)
      · exact Or.inr ⟨rfl, List.singleton_sublist.mpr hy⟩
      · exact Or.inl (ih.mp h)
    · rintro (h | ⟨h1, h2⟩)
      · exact Or.inr (ih.mpr h)
      · exact Or.inl ⟨p.2, List.singleton_sublist.mp h2, by
          obtain ⟨a, b⟩ := p
          simp only at h1
          simp [h1]⟩

/-- Both components of a pair of combinations2 are members of the list. -/
theorem mem_of_mem_combinations2 {β : Type} {l : List β} {p : β × β}
    (h : p ∈ combinations2 l) : p.1 ∈ l ∧ p.2 ∈ l := by
  have hs := mem_combinations2.mp h
  exact ⟨hs.mem (by simp), hs.mem (by simp)⟩

/-- When the keys of the dictionary are distinct, the two entries of a pair
of combinations2 carry distinct keys. -/
theorem keys_ne_of_mem_combinations2 {l : List (α × List ℚ)}
    {p : (α × List ℚ) × (α × List ℚ)} (hnd : (l.map Prod.fst).Nodup)
    (h : p ∈ combinations2 l) : p.1.1 ≠ p.2.1 := by
  have hs := (mem_combinations2.mp h).map Prod.fst
  have := hs.nodup hnd
  simp only [List.map_cons, List.map_nil, List.nodup_cons, List.mem_singleton] at this
  exact fun hk => this.1 (by simpa using hk)

/-- Two distinct members of a list form a two-element sublist in one of the
two orders. -/
theorem sublist_pair_of_mem {β : Type} {l : List β} {x y : β}
    (hx : x ∈ l) (hy : y ∈ l) (hxy : x ≠ y) :
    [x, y].Sublist l ∨ [y, x].Sublist l := by
  induction l with
  | nil => cases hx
  | cons a as ih =>
    rcases List.mem_cons.mp hx with rfl | hx'
    · have hy' : y ∈ as := by
        rcases List.mem_cons.mp hy with rfl | h
        · exact absurd rfl hxy
        · exact h
      exact Or.inl ((List.cons_sublist_cons').mpr (Or.inr ⟨rfl, List.singleton_sublist.mpr hy'⟩))
    · rcases List.mem_cons.mp hy with rfl | hy'
      · exact Or.inr ((List.cons_sublist_cons').mpr (Or.inr ⟨rfl, List.singleton_sublist.mpr hx'⟩))
      · rcases ih hx' hy' with h | h
        · exact Or.inl (h.cons a)
        · exact Or.inr (h.cons a)

/-- Entries of a dictionary with distinct keys are determined by their
key. -/
theorem entry_eq_of_key_eq {l : List (α × List ℚ)} (hnd : (l.map Prod.fst).Nodup)
    {x y : α × List ℚ} (hx : x ∈ l) (hy : y ∈ l) (h : x.1 = y.1) : x = y :=
  List.inj_on_of_nodup_map hnd hx hy h

/-- Membership characterisation of the document-document edge list: an edge
is exactly a pair of combinations2 whose similarity is strictly above the
threshold, carrying that similarity as weight. -/
theorem mem_link_similar_documents {cos : List ℚ → List ℚ → ℚ} {t : ℚ}
    {pe : List (α × List ℚ)} {e : (α × α) × ℚ} :
    e ∈ link_similar_documents cos t pe ↔
      ∃ kv ∈ combinations2 pe, t < cos kv.1.2 kv.2.2 ∧
        e = ((kv.1.1, kv.2.1), cos kv.1.2 kv.2.2) := by
  simp only [link_similar_documents, List.mem_filterMap]
  constructor
  · rintro ⟨kv, hkv, hsome⟩
    by_cases h : t < cos kv.1.2 kv.2.2
    · rw [if_pos h] at hsome
      exact ⟨kv, hkv, h, (Option.some_inj.mp hsome).symm⟩
    · rw [if_neg h] at hsome
      cases hsome
  · rintro ⟨kv, hkv, h, rfl⟩
    exact ⟨kv, hkv, by rw [if_pos h]⟩

/-!
## C2 — three-document transitive-overlap scenario
-/

/-- C2: with three documents whose pairwise similarities are
sim(A,B) = 0.4, sim(B,C) = 0.4, sim(A,C) = 0.1 and clustering threshold
0.35, the engine returns exactly the two size-2 clusters {A,B} and {B,C},
in discovery order, and not the merged group {A,B,C}. -/
theorem transitive_overlap_scenario :
    (generate_shared_opportunity_nodes cosScenario3 (mkRat 35 100)
        [("A", [1]), ("B", [2]), ("C", [3])]).2 =
      [("OPPORTUNITY_1", {"A", "B"}), ("OPPORTUNITY_2", {"B", "C"})] ∧
    ({"A", "B", "C"} : Finset String) ∉
      (generate_shared_opportunity_nodes cosScenario3 (mkRat 35 100)
        [("A", [1]), ("B", [2]), ("C", [3])]).2.map Prod.snd := by
  decide

/-!
## C4 — document-document edge threshold is strict, not ≥
-/

/-- C4 counterexample: two unit-norm embeddings whose cosine similarity is
exactly the 0.75 threshold produce no edge, because the source compares
with a strict inequality; an edge-iff-similarity-at-least-threshold reading
is therefore false at this input. -/
theorem doc_edge_threshold_cex :
    dotQ uBoundary vBoundary = 3/4 ∧
    dotQ uBoundary uBoundary = 1 ∧ dotQ vBoundary vBoundary = 1 ∧
    (3/4 : ℚ) ≤ dotQ uBoundary vBoundary ∧
    link_similar_documents dotQ (3/4) [("A", uBoundary), ("B", vBoundary)] = [] := by
  have h1 : dotQ uBoundary vBoundary = 3/4 := by
    norm_num [dotQ, uBoundary, vBoundary]
  refine ⟨h1, by norm_num [dotQ, uBoundary], by norm_num [dotQ, vBoundary], le_of_eq h1.symm, ?_⟩
  simp [link_similar_documents, combinations2, h1]

/-- C4 (amended): for every unordered pair of distinct documents of the
batch, an edge is materialised iff the cosine similarity of their
embeddings is strictly greater than the threshold, the edge weight is that
similarity, and every edge of the output arises from such a pair. -/
theorem doc_edge_threshold_strict (cos : List ℚ → List ℚ → ℚ) (t : ℚ)
    (pe : List (α × List ℚ)) (hnd : (pe.map Prod.fst).Nodup) :
    (∀ a b : α × List ℚ, [a, b].Sublist pe →
      ((((a.1, b.1), cos a.2 b.2) ∈ link_similar_documents cos t pe) ↔ t < cos a.2 b.2)) ∧
    (∀ e ∈ link_similar_documents cos t pe, ∃ a b : α × List ℚ,
      [a, b].Sublist pe ∧ t < cos a.2 b.2 ∧ e = ((a.1, b.1), cos a.2 b.2)) := by
  constructor
  · intro a b hab
    constructor
    · intro hmem
      obtain ⟨kv, hkv, hlt, he⟩ := mem_link_similar_documents.mp hmem
      obtain ⟨hm1, hm2⟩ := mem_of_mem_combinations2 hkv
      have h1 : kv.1 = a := by
        apply entry_eq_of_key_eq hnd hm1 ((@mem_combinations2 _ pe (a, b)).mpr hab |>
          mem_of_mem_combinations2).1
        have := congrArg (fun q => q.1.1) he
        simpa using this.symm
      have h2 : kv.2 = b := by
        apply entry_eq_of_key_eq hnd hm2 ((@mem_combinations2 _ pe (a, b)).mpr hab |>
          mem_of_mem_combinations2).2
        have := congrArg (fun q => q.1.2) he
        simpa using this.symm
      rw [← h1, ← h2]
      exact hlt
    · intro hlt
      exact mem_link_similar_documents.mpr
        ⟨(a, b), (@mem_combinations2 _ pe (a, b)).mpr hab, hlt, rfl⟩
  · intro e he
    obtain ⟨kv, hkv, hlt, he⟩ := mem_link_similar_documents.mp he
    exact ⟨kv.1, kv.2, mem_combinations2.mp hkv, hlt, he⟩

/-- Witness for doc_edge_threshold_strict at a concrete two-document batch. -/
theorem doc_edge_threshold_strict_witness :
    ((([("A", [1]), ("B", [2])] : List (String × List ℚ)).map Prod.fst).Nodup) ∧
    ((∀ a b : String × List ℚ, [a, b].Sublist [("A", [1]), ("B", [2])] →
      ((((a.1, b.1), cosScenario3 a.2 b.2) ∈
          link_similar_documents cosScenario3 (mkRat 35 100) [("A", [1]), ("B", [2])]) ↔
        mkRat 35 100 < cosScenario3 a.2 b.2)) ∧
    (∀ e ∈ link_similar_documents cosScenario3 (mkRat 35 100) [("A", [1]), ("B", [2])],
      ∃ a b : String × List ℚ, [a, b].Sublist [("A", [1]), ("B", [2])] ∧
        mkRat 35 100 < cosScenario3 a.2 b.2 ∧ e = ((a.1, b.1), cosScenario3 a.2 b.2))) :=
  ⟨by decide, doc_edge_threshold_strict cosScenario3 (mkRat 35 100) _ (by decide)⟩

/-!
## C8 — monotonicity of edge materialisation in the threshold
-/

/-- C8: lowering the document-similarity threshold only adds edges: every
edge materialised at threshold t is also materialised at any threshold
t' ≤ t, on the same input. -/
theorem doc_edges_threshold_monotone (cos : List ℚ → List ℚ → ℚ) (t t' : ℚ)
    (pe : List (α × List ℚ)) (h : t' ≤ t) :
    ∀ e ∈ link_similar_documents cos t pe, e ∈ link_similar_documents cos t' pe := by
  intro e he
  obtain ⟨kv, hkv, hlt, rfl⟩ := mem_link_similar_documents.mp he
  exact mem_link_similar_documents.mpr ⟨kv, hkv, lt_of_le_of_lt h hlt, rfl⟩

/-- Witness for doc_edges_threshold_monotone: a batch where the edge kept at
the higher threshold is kept at the lower one. -/
theorem doc_edges_threshold_monotone_witness :
    (mkRat 1 10 : ℚ) ≤ mkRat 35 100 ∧
    (∀ e ∈ link_similar_documents cosScenario3 (mkRat 35 100) [("A", [1]), ("B", [2])],
      e ∈ link_similar_documents cosScenario3 (mkRat 1 10) [("A", [1]), ("B", [2])]) :=
  ⟨by decide,
   doc_edges_threshold_monotone cosScenario3 (mkRat 35 100) (mkRat 1 10) _ (by decide)⟩

/-!
## C5 — narrative synthesis on an empty text group raises
-/

/-- C5 (code behaviour at the failing input): narrative synthesis applied
to an empty text group does not degrade to the fallback name/description —
the TF-IDF vectorizer rejects the empty document list and the error
propagates out of describe_opportunity, for any cleaner and any template
choice. -/
theorem narrative_empty_group_raises :
    ∀ (clean : String → String) (choice : ℕ),
      describe_opportunity clean tfidfModel choice [] =
        Except.error "empty vocabulary; perhaps the documents only contain stop words" := by
  intro clean choice
  rfl

/-!
## Fold lemmas for the clustering accumulation
-/

/-- One acceptance step never removes an accepted group. -/
theorem mem_groupStep_of_mem {cos : List ℚ → List ℚ → ℚ} {t : ℚ}
    {acc : List ((α × List ℚ) × (α × List ℚ))} {p g : (α × List ℚ) × (α × List ℚ)}
    (h : g ∈ acc) : g ∈ groupStep cos t acc p := by
  unfold groupStep
  by_cases h1 : t ≤ cos p.1.2 p.2.2
  · rw [if_pos h1]
    by_cases h2 : (acc.any fun g2 => pairSet p ⊆ pairSet g2) = true
    · rw [if_pos h2]; exact h
    · rw [if_neg h2]; exact List.mem_append_left _ h
  · rw [if_neg h1]; exact h

/-- The fold of acceptance steps never removes an accepted group. -/
theorem mem_foldl_groupStep_of_mem {cos : List ℚ → List ℚ → ℚ} {t : ℚ}
    {pairs : List ((α × List ℚ) × (α × List ℚ))}
    {acc : List ((α × List ℚ) × (α × List ℚ))} {g : (α × List ℚ) × (α × List ℚ)}
    (h : g ∈ acc) : g ∈ pairs.foldl (groupStep cos t) acc := by
  induction pairs generalizing acc with
  | nil => exact h
  | cons p ps ih =>
    rw [List.foldl_cons]
    exact ih (mem_groupStep_of_mem h)

/-- Soundness of the accumulated groups: every accepted group comes from
the initial accumulator or is one of the folded pairs, with its similarity
clearing the threshold. -/
theorem mem_of_mem_foldl_groupStep {cos : List ℚ → List ℚ → ℚ} {t : ℚ}
    {pairs : List ((α × List ℚ) × (α × List ℚ))}
    {acc : List ((α × List ℚ) × (α × List ℚ))} {g : (α × List ℚ) × (α × List ℚ)}
    (h : g ∈ pairs.foldl (groupStep cos t) acc) :
    g ∈ acc ∨ (g ∈ pairs ∧ t ≤ cos g.1.2 g.2.2) := by
  induction pairs generalizing acc with
  | nil => exact Or.inl h
  | cons p ps ih =>
    rw [List.foldl_cons] at h
    rcases ih h with h' | h'
    · unfold groupStep at h'
      by_cases h1 : t ≤ cos p.1.2 p.2.2
      · rw [if_pos h1] at h'
        by_cases h2 : (acc.any fun g2 => pairSet p ⊆ pairSet g2) = true
        · rw [if_pos h2] at h'; exact Or.inl h'
        · rw [if_neg h2] at h'
          rcases List.mem_append.mp h' with h'' | h''
          · exact Or.inl h''
          · have : g = p := by simpa using h''
            subst this
            exact Or.inr ⟨List.mem_cons_self _ _, h1⟩
      · rw [if_neg h1] at h'; exact Or.inl h'
    · exact Or.inr ⟨List.mem_cons_of_mem _ h'.1, h'.2⟩

/-- Completeness up to subset dominance: every pair clearing the threshold
ends up covered by some accepted group. -/
theorem cover_of_foldl_groupStep {cos : List ℚ → List ℚ → ℚ} {t : ℚ}
    {pairs : List ((α × List ℚ) × (α × List ℚ))}
    {acc : List ((α × List ℚ) × (α × List ℚ))} {kv : (α × List ℚ) × (α × List ℚ)}
    (hkv : kv ∈ pairs) (ht : t ≤ cos kv.1.2 kv.2.2) :
    ∃ g ∈ pairs.foldl (groupStep cos t) acc, pairSet kv ⊆ pairSet g := by
  induction pairs generalizing acc with
  | nil => cases hkv
  | cons p ps ih =>
    rw [List.foldl_cons]
    rcases List.mem_cons.mp hkv with rfl | h
    · by_cases h2 : (acc.any fun g2 => pairSet kv ⊆ pairSet g2) = true
      · obtain ⟨g, hg, hsub⟩ := List.any_eq_true.mp h2
        exact ⟨g, mem_foldl_groupStep_of_mem (mem_groupStep_of_mem hg), by simpa using hsub⟩
      · have hstep : kv ∈ groupStep cos t acc kv := by
          unfold groupStep
          rw [if_pos ht, if_neg h2]
          exact List.mem_append_right _ (by simp)
        exact ⟨kv, mem_foldl_groupStep_of_mem hstep, Finset.Subset.refl _⟩
    · exact ih h

/-- Invariant of the accumulation: when every folded pair has distinct
keys, all accepted groups have exactly two members and no accepted group's
member set is contained in another's. -/
theorem foldl_groupStep_invariant (cos : List ℚ → List ℚ → ℚ) (t : ℚ)
    (pairs : List ((α × List ℚ) × (α × List ℚ)))
    (acc : List ((α × List ℚ) × (α × List ℚ)))
    (hpairs : ∀ p ∈ pairs, p.1.1 ≠ p.2.1)
    (hacc2 : ∀ g ∈ acc, (pairSet g).card = 2)
    (haccpw : acc.Pairwise (fun g1 g2 => ¬ pairSet g1 ⊆ pairSet g2 ∧ ¬ pairSet g2 ⊆ pairSet g1)) :
    (∀ g ∈ pairs.foldl (groupStep cos t) acc, (pairSet g).card = 2) ∧
    (pairs.foldl (groupStep cos t) acc).Pairwise
      (fun g1 g2 => ¬ pairSet g1 ⊆ pairSet g2 ∧ ¬ pairSet g2 ⊆ pairSet g1) := by
  revert hpairs hacc2 haccpw
  induction pairs generalizing acc with
  | nil => exact fun _ hacc2 haccpw => ⟨hacc2, haccpw⟩
  | cons p ps ih =>
    intro hpairs hacc2 haccpw
    rw [List.foldl_cons]
    have hp : p.1.1 ≠ p.2.1 := hpairs p (List.mem_cons_self _ _)
    have hps : ∀ q ∈ ps, q.1.1 ≠ q.2.1 := fun q hq => hpairs q (List.mem_cons_of_mem _ hq)
    apply ih (groupStep cos t acc p) hps
    · intro g hg
      unfold groupStep at hg
      by_cases h1 : t ≤ cos p.1.2 p.2.2
      · rw [if_pos h1] at hg
        by_cases h2 : (acc.any fun g2 => pairSet p ⊆ pairSet g2) = true
        · rw [if_pos h2] at hg; exact hacc2 g hg
        · rw [if_neg h2] at hg
          rcases List.mem_append.mp hg with h' | h'
          · exact hacc2 g h'
          · have : g = p := by simpa using h'
            subst this
            exact Finset.card_pair hp
      · rw [if_neg h1] at hg; exact hacc2 g hg
    · unfold groupStep
      by_cases h1 : t ≤ cos p.1.2 p.2.2
      · rw [if_pos h1]
        by_cases h2 : (acc.any fun g2 => pairSet p ⊆ pairSet g2) = true
        · rw [if_pos h2]; exact haccpw
        · rw [if_neg h2]
          rw [List.pairwise_append]
          refine ⟨haccpw, by simp, ?_⟩
          intro g hg g' hg'
          have hg'p : g' = p := by simpa using hg'
          have hcard' : (pairSet g').card = 2 := by
            rw [hg'p]; exact Finset.card_pair hp
          have hnotsub : ¬ pairSet g' ⊆ pairSet g := by
            intro hsub
            apply h2
            refine List.any_eq_true.mpr ⟨g, hg, ?_⟩
            rw [← hg'p]
            simpa using hsub
          refine ⟨?_, hnotsub⟩
          intro hsub
          have heq : pairSet g = pairSet g' :=
            Finset.eq_of_subset_of_card_le hsub
              (le_of_eq (hcard'.trans (hacc2 g hg).symm))
          apply hnotsub
          rw [← heq]
      · rw [if_neg h1]; exact haccpw

/-- The member sets of the produced membership map are exactly the member
sets of the accepted groups, in order. -/
theorem connections_map_snd (cos : List ℚ → List ℚ → ℚ) (t : ℚ)
    (pe : List (α × List ℚ)) :
    (generate_shared_opportunity_nodes cos t pe).2.map Prod.snd =
      (sharedGroups cos t pe).map pairSet := by
  simp only [generate_shared_opportunity_nodes, List.map_map]
  rw [show ((Prod.snd ∘ fun ig : ℕ × ((α × List ℚ) × (α × List ℚ)) =>
      ("OPPORTUNITY_" ++ toString (ig.1 + 1), pairSet ig.2)) =
      pairSet ∘ Prod.snd) from rfl]
  rw [← List.map_map, List.enum_map_snd]

/-!
## C1 — no accepted cluster is a subset of another
-/

/-- C1: in the membership map returned by the clustering engine on a
document-embedding dictionary (distinct keys), no accepted cluster's
member set is a subset of another accepted cluster's member set, in either
direction. -/
theorem clusters_no_subset_dominance (cos : List ℚ → List ℚ → ℚ) (t : ℚ)
    (pe : List (α × List ℚ)) (hnd : (pe.map Prod.fst).Nodup) :
    ((generate_shared_opportunity_nodes cos t pe).2.map Prod.snd).Pairwise
      (fun X Y => ¬ X ⊆ Y ∧ ¬ Y ⊆ X) := by
  rw [connections_map_snd]
  have hinv := foldl_groupStep_invariant cos t (combinations2 pe) []
    (fun p hp => keys_ne_of_mem_combinations2 hnd hp) (by simp) (by simp)
  exact List.pairwise_map.mpr hinv.2

/-- Witness for clusters_no_subset_dominance on the three-document
scenario batch. -/
theorem clusters_no_subset_dominance_witness :
    ((([("A", [1]), ("B", [2]), ("C", [3])] : List (String × List ℚ)).map Prod.fst).Nodup) ∧
    ((generate_shared_opportunity_nodes cosScenario3 (mkRat 35 100)
        [("A", [1]), ("B", [2]), ("C", [3])]).2.map Prod.snd).Pairwise
      (fun X Y => ¬ X ⊆ Y ∧ ¬ Y ⊆ X) :=
  ⟨by decide, clusters_no_subset_dominance cosScenario3 (mkRat 35 100) _ (by decide)⟩

/-!
## C10 — every cluster has exactly two members
-/

/-- C10: every cluster of the returned membership map has exactly two
members: each accepted group is one unordered pair of distinct document
ids and is never enlarged. -/
theorem clusters_size_two (cos : List ℚ → List ℚ → ℚ) (t : ℚ)
    (pe : List (α × List ℚ)) (hnd : (pe.map Prod.fst).Nodup) :
    ∀ c ∈ (generate_shared_opportunity_nodes cos t pe).2, c.2.card = 2 := by
  intro c hc
  have hmem : c.2 ∈ (generate_shared_opportunity_nodes cos t pe).2.map Prod.snd :=
    List.mem_map.mpr ⟨c, hc, rfl⟩
  rw [connections_map_snd] at hmem
  obtain ⟨g, hg, heq⟩ := List.mem_map.mp hmem
  rw [← heq]
  exact (foldl_groupStep_invariant cos t (combinations2 pe) []
    (fun p hp => keys_ne_of_mem_combinations2 hnd hp) (by simp) (by simp)).1 g hg

/-- Witness for clusters_size_two on the three-document scenario batch. -/
theorem clusters_size_two_witness :
    ((([("A", [1]), ("B", [2]), ("C", [3])] : List (String × List ℚ)).map Prod.fst).Nodup) ∧
    ∀ c ∈ (generate_shared_opportunity_nodes cosScenario3 (mkRat 35 100)
        [("A", [1]), ("B", [2]), ("C", [3])]).2, c.2.card = 2 :=
  ⟨by decide, clusters_size_two cosScenario3 (mkRat 35 100) _ (by decide)⟩

/-!
## C9 — clustering is order-independent
-/

/-- Characterisation of the produced member sets: exactly the pair sets of
two distinct-key dictionary entries whose similarity clears the threshold
(for a symmetric similarity and distinct keys). -/
theorem mem_clusters_iff (cos : List ℚ → List ℚ → ℚ) (t : ℚ)
    {pe : List (α × List ℚ)} (hnd : (pe.map Prod.fst).Nodup)
    (hsym : ∀ u v, cos u v = cos v u) (s : Finset α) :
    s ∈ (sharedGroups cos t pe).map pairSet ↔
      ∃ x ∈ pe, ∃ y ∈ pe, x.1 ≠ y.1 ∧ t ≤ cos x.2 y.2 ∧ s = {x.1, y.1} := by
  constructor
  · intro hs
    obtain ⟨g, hg, rfl⟩ := List.mem_map.mp hs
    rcases mem_of_mem_foldl_groupStep hg with h | ⟨hmem, ht⟩
    · cases h
    · obtain ⟨h1, h2⟩ := mem_of_mem_combinations2 hmem
      exact ⟨g.1, h1, g.2, h2, keys_ne_of_mem_combinations2 hnd hmem, ht, rfl⟩
  · rintro ⟨x, hx, y, hy, hxy, ht, rfl⟩
    have hxyne : x ≠ y := fun h => hxy (by rw [h])
    have hcovered : ∃ kv ∈ combinations2 pe,
        t ≤ cos kv.1.2 kv.2.2 ∧ ({x.1, y.1} : Finset α) = pairSet kv ∧ kv.1.1 ≠ kv.2.1 := by
      rcases sublist_pair_of_mem hx hy hxyne with h | h
      · exact ⟨(x, y), mem_combinations2.mpr (by simpa using h), ht, rfl, hxy⟩
      · exact ⟨(y, x), mem_combinations2.mpr (by simpa using h), by rw [hsym]; exact ht,
          by simp [pairSet, Finset.pair_comm], fun hk => hxy hk.symm⟩
    obtain ⟨kv, hkv, ht', hset, hkne⟩ := hcovered
    obtain ⟨g, hg, hsub⟩ : ∃ g ∈ (combinations2 pe).foldl (groupStep cos t) [],
        pairSet kv ⊆ pairSet g := cover_of_foldl_groupStep hkv ht'
    have hcardg : (pairSet g).card = 2 :=
      (foldl_groupStep_invariant cos t (combinations2 pe) []
        (fun p hp => keys_ne_of_mem_combinations2 hnd hp) (by simp) (by simp)).1 g hg
    have hcardkv : (pairSet kv).card = 2 := Finset.card_pair hkne
    have heq : pairSet kv = pairSet g :=
      Finset.eq_of_subset_of_card_le hsub (le_of_eq (hcardg.trans hcardkv.symm))
    exact List.mem_map.mpr ⟨g, hg, by rw [← heq, ← hset]⟩

/-- C9: permuting the iteration order of the document-embedding dictionary
leaves the final collection of clusters unchanged when compared as a set of
member-id sets. -/
theorem clustering_order_independent (cos : List ℚ → List ℚ → ℚ) (t : ℚ)
    (pe pe' : List (α × List ℚ)) (hperm : pe.Perm pe')
    (hnd : (pe.map Prod.fst).Nodup) (hsym : ∀ u v, cos u v = cos v u) :
    ((generate_shared_opportunity_nodes cos t pe).2.map Prod.snd).toFinset =
      ((generate_shared_opportunity_nodes cos t pe').2.map Prod.snd).toFinset := by
  have hnd' : (pe'.map Prod.fst).Nodup := ((hperm.map Prod.fst).nodup_iff).mp hnd
  ext s
  simp only [List.mem_toFinset]
  rw [connections_map_snd, connections_map_snd,
    mem_clusters_iff cos t hnd hsym s, mem_clusters_iff cos t hnd' hsym s]
  constructor
  · rintro ⟨x, hx, y, hy, h1, h2, h3⟩
    exact ⟨x, hperm.subset hx, y, hperm.subset hy, h1, h2, h3⟩
  · rintro ⟨x, hx, y, hy, h1, h2, h3⟩
    exact ⟨x, hperm.symm.subset hx, y, hperm.symm.subset hy, h1, h2, h3⟩

/-- Constant similarity function, trivially symmetric, used as the cosine
instance of the order-independence witness. -/
def cosConst : List ℚ → List ℚ → ℚ := fun _ _ => mkRat 2 5

/-- Witness for clustering_order_independent: a three-document batch
against its reversal under a (symmetric) constant similarity. -/
theorem clustering_order_independent_witness :
    (([("A", [1]), ("B", [2]), ("C", [3])] : List (String × List ℚ)).Perm
        [("C", [3]), ("B", [2]), ("A", [1])]) ∧
    ((([("A", [1]), ("B", [2]), ("C", [3])] : List (String × List ℚ)).map Prod.fst).Nodup) ∧
    (∀ u v, cosConst u v = cosConst v u) ∧
    ((generate_shared_opportunity_nodes cosConst (mkRat 35 100)
        [("A", [1]), ("B", [2]), ("C", [3])]).2.map Prod.snd).toFinset =
      ((generate_shared_opportunity_nodes cosConst (mkRat 35 100)
        [("C", [3]), ("B", [2]), ("A", [1])]).2.map Prod.snd).toFinset :=
  ⟨by decide, by decide, fun _ _ => rfl,
   clustering_order_independent cosConst (mkRat 35 100)
     [("A", [1]), ("B", [2]), ("C", [3])] [("C", [3]), ("B", [2]), ("A", [1])]
     (by decide) (by decide) (fun _ _ => rfl)⟩

/-!
## C3 — flagship selection
-/

/-- Python max-by-key over a non-empty sequence: the fold keeps the first
element attaining the maximal key — the result is some element whose key is
maximal, and every earlier element has a strictly smaller key. -/
theorem foldl_max_spec {β : Type} (key : β → ℕ) (x : β) (xs : List β) :
    ∃ i, ∃ hi : i < (x :: xs).length,
      xs.foldl (fun best p => if key best < key p then p else best) x = (x :: xs).get ⟨i, hi⟩ ∧
      (∀ j, ∀ hj : j < (x :: xs).length,
        key ((x :: xs).get ⟨j, hj⟩) ≤ key ((x :: xs).get ⟨i, hi⟩)) ∧
      (∀ j, ∀ hj : j < (x :: xs).length, j < i →
        key ((x :: xs).get ⟨j, hj⟩) < key ((x :: xs).get ⟨i, hi⟩)) := by
  induction xs generalizing x with
  | nil =>
    refine ⟨0, by simp, rfl, ?_, ?_⟩
    · intro j hj
      have : j = 0 := by simpa using hj
      subst this
      exact le_refl _
    · intro j hj hji
      omega
  | cons p ps ih =>
    rw [List.foldl_cons]
    by_cases h : key x < key p
    · rw [if_pos h]
      obtain ⟨i, hi, heq, hmax, hfirst⟩ := ih p
      have hi2 : i + 1 < (x :: p :: ps).length := by
        simp only [List.length_cons] at hi ⊢
        omega
      refine ⟨i + 1, hi2, heq, ?_, ?_⟩
      · intro j hj
        cases j with
        | zero => exact le_of_lt (lt_of_lt_of_le h (hmax 0 (by simp)))
        | succ j' => exact hmax j' (by simp only [List.length_cons] at hj ⊢; omega)
      · intro j hj hji
        cases j with
        | zero => exact lt_of_lt_of_le h (hmax 0 (by simp))
        | succ j' =>
          exact hfirst j' (by simp only [List.length_cons] at hj ⊢; omega) (by omega)
    · rw [if_neg h]
      obtain ⟨i, hi, heq, hmax, hfirst⟩ := ih x
      cases i with
      | zero =>
        refine ⟨0, by simp, heq, ?_, ?_⟩
        · intro j hj
          cases j with
          | zero => exact hmax 0 (by simp)
          | succ j' =>
            cases j' with
            | zero => exact le_trans (le_of_not_lt h) (hmax 0 (by simp))
            | succ j'' =>
              exact hmax (j'' + 1) (by simp only [List.length_cons] at hj ⊢; omega)
        · intro j hj hji
          omega
      | succ i' =>
        have hi2 : i' + 2 < (x :: p :: ps).length := by
          simp only [List.length_cons] at hi ⊢
          omega
        refine ⟨i' + 2, hi2, heq, ?_, ?_⟩
        · intro j hj
          cases j with
          | zero => exact hmax 0 (by simp)
          | succ j' =>
            cases j' with
            | zero => exact le_trans (le_of_not_lt h) (hmax 0 (by simp))
            | succ j'' =>
              exact hmax (j'' + 1) (by simp only [List.length_cons] at hj ⊢; omega)
        · intro j hj hji
          cases j with
          | zero => exact hfirst 0 (by simp) (by omega)
          | succ j' =>
            cases j' with
            | zero =>
              exact lt_of_le_of_lt (le_of_not_lt h) (hfirst 0 (by simp) (by omega))
            | succ j'' =>
              exact hfirst (j'' + 1) (by simp only [List.length_cons] at hj ⊢; omega)
                (by omega)

/-- C3: the flagship selector is total; on an empty membership map it
returns the full set of batch document ids, and on a non-empty map it
returns the member set of a cluster of maximal size such that every
earlier-discovered (lower-id) cluster is strictly smaller — the
largest-cluster rule with ties broken by earliest discovery order. -/
theorem flagship_selection_spec (links : List (String × Finset α))
    (pe : List (α × List ℚ)) :
    (links = [] → patents_for_startup links pe = (pe.map Prod.fst).toFinset) ∧
    (links ≠ [] → ∃ i, ∃ hi : i < links.length,
      patents_for_startup links pe = (links.get ⟨i, hi⟩).2 ∧
      (∀ j, ∀ hj : j < links.length,
        (links.get ⟨j, hj⟩).2.card ≤ (links.get ⟨i, hi⟩).2.card) ∧
      (∀ j, ∀ hj : j < links.length, j < i →
        (links.get ⟨j, hj⟩).2.card < (links.get ⟨i, hi⟩).2.card)) := by
  constructor
  · rintro rfl
    rfl
  · intro hne
    match links with
    | [] => exact absurd rfl hne
    | x :: xs =>
      obtain ⟨i, hi, heq, hmax, hfirst⟩ :=
        foldl_max_spec (fun p : String × Finset α => p.2.card) x xs
      refine ⟨i, hi, ?_, hmax, hfirst⟩
      show patents_for_startup (x :: xs) pe = ((x :: xs).get ⟨i, hi⟩).2
      unfold patents_for_startup maxByLen
      exact congrArg Prod.snd heq

/-- Witness for flagship_selection_spec: both the empty-map fallback and a
non-empty two-cluster map. -/
theorem flagship_selection_spec_witness :
    (patents_for_startup ([] : List (String × Finset String))
        [("A", ([1] : List ℚ)), ("B", [2])] = {"A", "B"}) ∧
    (([("OPPORTUNITY_1", ({"A", "B"} : Finset String)),
        ("OPPORTUNITY_2", {"B", "C", "D"})] : List (String × Finset String)) ≠ []) ∧
    (∃ i, ∃ hi : i < ([("OPPORTUNITY_1", ({"A", "B"} : Finset String)),
        ("OPPORTUNITY_2", {"B", "C", "D"})] : List (String × Finset String)).length,
      patents_for_startup
          [("OPPORTUNITY_1", ({"A", "B"} : Finset String)),
            ("OPPORTUNITY_2", {"B", "C", "D"})] ([] : List (String × List ℚ)) =
        (([("OPPORTUNITY_1", ({"A", "B"} : Finset String)),
            ("OPPORTUNITY_2", {"B", "C", "D"})] : List (String × Finset String)).get ⟨i, hi⟩).2 ∧
      (∀ j, ∀ hj : j < ([("OPPORTUNITY_1", ({"A", "B"} : Finset String)),
          ("OPPORTUNITY_2", {"B", "C", "D"})] : List (String × Finset String)).length,
        (([("OPPORTUNITY_1", ({"A", "B"} : Finset String)),
            ("OPPORTUNITY_2", {"B", "C", "D"})] : List (String × Finset String)).get
            ⟨j, hj⟩).2.card ≤
          (([("OPPORTUNITY_1", ({"A", "B"} : Finset String)),
              ("OPPORTUNITY_2", {"B", "C", "D"})] : List (String × Finset String)).get
              ⟨i, hi⟩).2.card) ∧
      (∀ j, ∀ hj : j < ([("OPPORTUNITY_1", ({"A", "B"} : Finset String)),
          ("OPPORTUNITY_2", {"B", "C", "D"})] : List (String × Finset String)).length, j < i →
        (([("OPPORTUNITY_1", ({"A", "B"} : Finset String)),
            ("OPPORTUNITY_2", {"B", "C", "D"})] : List (String × Finset String)).get
            ⟨j, hj⟩).2.card <
          (([("OPPORTUNITY_1", ({"A", "B"} : Finset String)),
              ("OPPORTUNITY_2", {"B", "C", "D"})] : List (String × Finset String)).get
              ⟨i, hi⟩).2.card)) :=
  ⟨by rw [(flagship_selection_spec ([] : List (String × Finset String))
        [("A", ([1] : List ℚ)), ("B", [2])]).1 rfl]; decide,
   by decide,
   (flagship_selection_spec
      [("OPPORTUNITY_1", ({"A", "B"} : Finset String)), ("OPPORTUNITY_2", {"B", "C", "D"})]
      ([] : List (String × List ℚ))).2 (by decide)⟩

/-!
## C6 — top-K taxonomy selection
-/

/-- Totality of the stable-argsort index order. -/
theorem rIdx_total (sims : List ℚ) : ∀ i j, rIdx sims i j ∨ rIdx sims j i := by
  intro i j
  unfold rIdx
  rcases lt_trichotomy (sims.getD i 0) (sims.getD j 0) with h | h | h
  · exact Or.inl (Or.inl h)
  · rcases le_total i j with hij | hij
    · exact Or.inl (Or.inr ⟨h, hij⟩)
    · exact Or.inr (Or.inr ⟨h.symm, hij⟩)
  · exact Or.inr (Or.inl h)

/-- Transitivity of the stable-argsort index order. -/
theorem rIdx_trans (sims : List ℚ) :
    ∀ i j k, rIdx sims i j → rIdx sims j k → rIdx sims i k := by
  intro i j k hij hjk
  unfold rIdx at hij hjk ⊢
  rcases hij with h1 | ⟨h1, h1'⟩ <;> rcases hjk with h2 | ⟨h2, h2'⟩
  · exact Or.inl (h1.trans h2)
  · exact Or.inl (h2 ▸ h1)
  · exact Or.inl (h1 ▸ h2)
  · exact Or.inr ⟨h1.trans h2, h1'.trans h2'⟩

/-- The modelled argsort is a permutation of the index range. -/
theorem argsortAsc_perm (sims : List ℚ) :
    (argsortAsc sims).Perm (List.range sims.length) :=
  List.perm_insertionSort _ _

/-- The modelled argsort is sorted for the stable index order. -/
theorem argsortAsc_sorted (sims : List ℚ) :
    (argsortAsc sims).Sorted (rIdx sims) := by
  haveI : IsTotal ℕ (rIdx sims) := ⟨rIdx_total sims⟩
  haveI : IsTrans ℕ (rIdx sims) := ⟨rIdx_trans sims⟩
  exact List.sorted_insertionSort _ _

/-- Selected indices of top_indices are in range. -/
theorem top_indices_lt (sims : List ℚ) (k : ℕ) :
    ∀ i ∈ top_indices sims k, i < sims.length := by
  intro i hi
  have h1 : i ∈ (argsortAsc sims).reverse := List.take_subset _ _ hi
  have h2 : i ∈ argsortAsc sims := List.mem_reverse.mp h1
  exact List.mem_range.mp ((argsortAsc_perm sims).subset h2)

/-- The selected indices are distinct. -/
theorem top_indices_nodup (sims : List ℚ) (k : ℕ) : (top_indices sims k).Nodup := by
  have h1 : (argsortAsc sims).Nodup :=
    (argsortAsc_perm sims).nodup_iff.mpr (List.nodup_range _)
  exact ((List.take_sublist k _).nodup (List.nodup_reverse.mpr h1))

/-- The number of selected indices is min k n. -/
theorem top_indices_length (sims : List ℚ) (k : ℕ) :
    (top_indices sims k).length = min k sims.length := by
  unfold top_indices
  rw [List.length_take, List.length_reverse, (argsortAsc_perm sims).length_eq,
    List.length_range]

/-- Dominance of the selection: every selected index beats every unselected
in-range index in the descending order, with ties resolved towards the
higher index (the reversal of the stable ascending argsort). -/
theorem top_indices_dominate (sims : List ℚ) (k : ℕ) :
    ∀ i ∈ top_indices sims k, ∀ j, j < sims.length → j ∉ top_indices sims k →
      (sims.getD j 0 < sims.getD i 0 ∨ (sims.getD j 0 = sims.getD i 0 ∧ j < i)) := by
  intro i hi j hj hjsel
  have hrev : (argsortAsc sims).reverse.Pairwise (fun a b => rIdx sims b a) :=
    List.pairwise_reverse.mpr (argsortAsc_sorted sims)
  have hsplit := List.take_append_drop k (argsortAsc sims).reverse
  rw [← hsplit] at hrev
  obtain ⟨-, -, hcross⟩ := List.pairwise_append.mp hrev
  have hjrev : j ∈ (argsortAsc sims).reverse :=
    List.mem_reverse.mpr ((argsortAsc_perm sims).mem_iff.mpr (List.mem_range.mpr hj))
  rw [← hsplit] at hjrev
  have hjdrop : j ∈ (argsortAsc sims).reverse.drop k := by
    rcases List.mem_append.mp hjrev with h | h
    · exact absurd h hjsel
    · exact h
  have hr : rIdx sims j i := hcross i hi j hjdrop
  have hne : j ≠ i := fun he => hjsel (he ▸ hi)
  rcases hr with h | ⟨h, h'⟩
  · exact Or.inl h
  · exact Or.inr ⟨h, lt_of_le_of_ne h' hne⟩

/-- Index injectivity of a taxonomy list with distinct ids. -/
theorem tx_key_index_inj (tx : List (String × List ℚ))
    (hnd : (tx.map Prod.fst).Nodup) :
    ∀ i j, ∀ hi : i < tx.length, ∀ hj : j < tx.length,
      (tx.get ⟨i, hi⟩).1 = (tx.get ⟨j, hj⟩).1 → i = j := by
  intro i j hi hj hk
  have hent : tx.get ⟨i, hi⟩ = tx.get ⟨j, hj⟩ :=
    List.inj_on_of_nodup_map hnd (tx.get_mem _ _) (tx.get_mem _ _) hk
  have := (List.Nodup.get_inj_iff (hnd.of_map)).mp hent
  exact congrArg Fin.val this

/-- C6 counterexample input: six equal similarity scores. -/
def simsSix : List ℚ := [1, 1, 1, 1, 1, 1]

/-- C6 counterexample: with six taxonomy entries of equal similarity and
K = 5, the source selection (reversed stable argsort) picks indices
5,4,3,2,1 — excluding the first-inserted entry T0 — while the claimed
insertion-order tie-break would pick 0,1,2,3,4; the claim is false at this
input. -/
theorem topk_tie_break_cex :
    top_indices simsSix 5 = [5, 4, 3, 2, 1] ∧
    topKByInsertionOrder simsSix 5 = [0, 1, 2, 3, 4] ∧
    (attach_document_edges (fun _ _ => 1) [] txSix 5).map Prod.fst =
      ["T5", "T4", "T3", "T2", "T1"] ∧
    (topKByInsertionOrder simsSix 5).map (fun i => (txSix.getD i ("", [])).1) =
      ["T0", "T1", "T2", "T3", "T4"] ∧
    (attach_document_edges (fun _ _ => 1) [] txSix 5).map Prod.fst ≠
      (topKByInsertionOrder simsSix 5).map (fun i => (txSix.getD i ("", [])).1) := by
  decide

/-- C6 (amended): for every document, the taxonomy edge set has size
min(top_k, taxonomy_count) with pairwise-distinct taxonomy ids, each edge
carries the un-clamped similarity of the document against that taxonomy
entry as weight, and the selected entries are the top-K by score descending
with ties broken towards the LATER taxonomy insertion order (higher index
first), the order produced by reversing a stable ascending argsort. -/
theorem topk_edges_spec (cos : List ℚ → List ℚ → ℚ) (emb : List ℚ)
    (tx : List (String × List ℚ)) (k : ℕ) (hnd : (tx.map Prod.fst).Nodup) :
    (attach_document_edges cos emb tx k).length = min k tx.length ∧
    ((attach_document_edges cos emb tx k).map Prod.fst).Nodup ∧
    (∀ e ∈ attach_document_edges cos emb tx k, ∃ i, ∃ hi : i < tx.length,
      i ∈ top_indices (tx.map fun s => cos emb s.2) k ∧
      e = ((tx.get ⟨i, hi⟩).1, cos emb (tx.get ⟨i, hi⟩).2)) ∧
    (∀ i ∈ top_indices (tx.map fun s => cos emb s.2) k,
      ∀ j, j < tx.length → j ∉ top_indices (tx.map fun s => cos emb s.2) k →
        ((tx.map fun s => cos emb s.2).getD j 0 < (tx.map fun s => cos emb s.2).getD i 0 ∨
          ((tx.map fun s => cos emb s.2).getD j 0 = (tx.map fun s => cos emb s.2).getD i 0 ∧
            j < i))) := by
  have hlen : (tx.map fun s => cos emb s.2).length = tx.length := List.length_map _ _
  have hget : ∀ i, ∀ hi : i < tx.length,
      (tx.getD i ("", [])).1 = (tx.get ⟨i, hi⟩).1 ∧
      ((tx.map fun s => cos emb s.2).getD i 0 = cos emb (tx.get ⟨i, hi⟩).2) := by
    intro i hi
    constructor
    · rw [List.getD_eq_getElem tx ("", []) hi]
      rfl
    · rw [List.getD_eq_getElem _ 0 (by rw [hlen]; exact hi), List.getElem_map]
      rfl
  refine ⟨?_, ?_, ?_, ?_⟩
  · rw [attach_document_edges, List.length_map, top_indices_length, hlen]
  · rw [attach_document_edges, List.map_map]
    apply List.Nodup.map_on ?_ (top_indices_nodup _ _)
    intro i hi j hj hk
    have hi' : i < tx.length := by
      have := top_indices_lt _ k i hi
      rwa [hlen] at this
    have hj' : j < tx.length := by
      have := top_indices_lt _ k j hj
      rwa [hlen] at this
    apply tx_key_index_inj tx hnd i j hi' hj'
    rw [← (hget i hi').1, ← (hget j hj').1]
    simpa using hk
  · intro e he
    rw [attach_document_edges] at he
    obtain ⟨i, hi, rfl⟩ := List.mem_map.mp he
    have hi' : i < tx.length := by
      have := top_indices_lt _ k i hi
      rwa [hlen] at this
    exact ⟨i, hi', hi, by rw [(hget i hi').1, (hget i hi').2]⟩
  · intro i hi j hj hjsel
    exact top_indices_dominate _ k i hi j (by rwa [hlen]) hjsel

/-- Witness for topk_edges_spec at a concrete three-entry taxonomy. -/
theorem topk_edges_spec_witness :
    ((([("S1", [1]), ("S2", [2]), ("S3", [3])] : List (String × List ℚ)).map Prod.fst).Nodup) ∧
    (attach_document_edges cosScenario3 [1]
        [("S1", [1]), ("S2", [2]), ("S3", [3])] 2).length =
      min 2 ([("S1", [1]), ("S2", [2]), ("S3", [3])] : List (String × List ℚ)).length :=
  ⟨by decide,
   (topk_edges_spec cosScenario3 [1] [("S1", [1]), ("S2", [2]), ("S3", [3])] 2 (by decide)).1⟩

/-!
## C7 — centroids and id assignment
-/

/-- A key present among the dictionary keys is found by lookupD and yields
the value of one of its entries. -/
theorem lookupD_spec {pe : List (α × List ℚ)} {k : α}
    (hk : k ∈ pe.map Prod.fst) :
    ∃ q ∈ pe, q.1 = k ∧ lookupD pe k = q.2 := by
  unfold lookupD
  cases hfind : pe.find? (fun p => p.1 = k) with
  | none =>
    obtain ⟨q, hq, hqk⟩ := List.mem_map.mp hk
    have := List.find?_eq_none.mp hfind q hq
    simp [hqk] at this
  | some q =>
    have hqmem : q ∈ pe := List.mem_of_find?_eq_some hfind
    have hqk : q.1 = k := by
      have := List.find?_some hfind
      simpa using this
    exact ⟨q, hqmem, hqk, rfl⟩

/-- Element-wise mean of two equal-length vectors: length is preserved and
every coordinate is the halved sum of the coordinates. -/
theorem vecMean_two (v w : List ℚ) (dim : ℕ) (hv : v.length = dim) (hw : w.length = dim) :
    (vecMean [v, w]).length = dim ∧
    ∀ d, d < dim → (vecMean [v, w]).getD d 0 = (v.getD d 0 + w.getD d 0) / 2 := by
  have hz : (List.zipWith (fun a b => a + b) v w).length = dim := by
    rw [List.length_zipWith, hv, hw, min_self]
  have hmean : vecMean [v, w] =
      (List.zipWith (fun a b => a + b) v w).map (fun x => x / (2 : ℚ)) := by
    unfold vecMean
    norm_num
  constructor
  · rw [hmean, List.length_map, hz]
  · intro d hd
    have hd1 : d < ((List.zipWith (fun a b => a + b) v w).map (fun x => x / (2 : ℚ))).length := by
      rw [List.length_map, hz]; exact hd
    rw [hmean, List.getD_eq_getElem _ 0 hd1, List.getElem_map, List.getElem_zipWith,
      List.getD_eq_getElem v 0 (by rw [hv]; exact hd),
      List.getD_eq_getElem w 0 (by rw [hw]; exact hd)]

/-- C7: the nodes and connections lists are parallel; entry i carries the
1-based discovery-order id OPPORTUNITY_(i+1) on both sides, the member set
has two members, and the node's centroid is the element-wise mean of the
members' embedding vectors — each coordinate is the member sum divided by
the member count. -/
theorem opportunity_centroid_spec (cos : List ℚ → List ℚ → ℚ) (t : ℚ)
    (pe : List (α × List ℚ)) (dim : ℕ)
    (hdim : ∀ kv ∈ pe, kv.2.length = dim) (hnd : (pe.map Prod.fst).Nodup) :
    (generate_shared_opportunity_nodes cos t pe).1.length =
      (generate_shared_opportunity_nodes cos t pe).2.length ∧
    ∀ i, ∀ hi1 : i < (generate_shared_opportunity_nodes cos t pe).1.length,
      ∀ hi2 : i < (generate_shared_opportunity_nodes cos t pe).2.length,
      ((generate_shared_opportunity_nodes cos t pe).1.get ⟨i, hi1⟩).id =
        "OPPORTUNITY_" ++ toString (i + 1) ∧
      ((generate_shared_opportunity_nodes cos t pe).2.get ⟨i, hi2⟩).1 =
        "OPPORTUNITY_" ++ toString (i + 1) ∧
      ((generate_shared_opportunity_nodes cos t pe).2.get ⟨i, hi2⟩).2.card = 2 ∧
      ((generate_shared_opportunity_nodes cos t pe).1.get ⟨i, hi1⟩).embedding.length = dim ∧
      ∀ d, d < dim →
        ((generate_shared_opportunity_nodes cos t pe).1.get ⟨i, hi1⟩).embedding.getD d 0 =
          (((generate_shared_opportunity_nodes cos t pe).2.get ⟨i, hi2⟩).2.sum
            (fun pid => (lookupD pe pid).getD d 0)) /
            ((((generate_shared_opportunity_nodes cos t pe).2.get ⟨i, hi2⟩).2.card : ℚ)) := by
  have hlen1 : (generate_shared_opportunity_nodes cos t pe).1.length =
      (sharedGroups cos t pe).length := by
    simp [generate_shared_opportunity_nodes]
  have hlen2 : (generate_shared_opportunity_nodes cos t pe).2.length =
      (sharedGroups cos t pe).length := by
    simp [generate_shared_opportunity_nodes]
  refine ⟨by rw [hlen1, hlen2], ?_⟩
  intro i hi1 hi2
  have higrp : i < (sharedGroups cos t pe).length := by rwa [hlen1] at hi1
  have hgmem : (sharedGroups cos t pe).get ⟨i, higrp⟩ ∈ sharedGroups cos t pe :=
    List.get_mem _ _ _
  rcases mem_of_mem_foldl_groupStep hgmem with hfalse | ⟨hcomb, _⟩
  · cases hfalse
  have hne : ((sharedGroups cos t pe).get ⟨i, higrp⟩).1.1 ≠
      ((sharedGroups cos t pe).get ⟨i, higrp⟩).2.1 :=
    keys_ne_of_mem_combinations2 hnd hcomb
  obtain ⟨hm1, hm2⟩ := mem_of_mem_combinations2 hcomb
  obtain ⟨q1, hq1m, hq1k, hq1v⟩ := lookupD_spec (List.mem_map.mpr ⟨_, hm1, rfl⟩)
  obtain ⟨q2, hq2m, hq2k, hq2v⟩ := lookupD_spec (List.mem_map.mpr ⟨_, hm2, rfl⟩)
  have hl1 : (lookupD pe ((sharedGroups cos t pe).get ⟨i, higrp⟩).1.1).length = dim := by
    rw [hq1v]; exact hdim q1 hq1m
  have hl2 : (lookupD pe ((sharedGroups cos t pe).get ⟨i, higrp⟩).2.1).length = dim := by
    rw [hq2v]; exact hdim q2 hq2m
  have e1 : (generate_shared_opportunity_nodes cos t pe).1.get ⟨i, hi1⟩ =
      { id := "OPPORTUNITY_" ++ toString (i + 1)
        label := "Shared Opportunity " ++ toString (i + 1) ++ " (" ++
          toString (pairSet ((sharedGroups cos t pe).get ⟨i, higrp⟩)).card ++ " patents)"
        embedding := vecMean (memberVecs pe ((sharedGroups cos t pe).get ⟨i, higrp⟩)) } := by
    simp only [generate_shared_opportunity_nodes, List.get_eq_getElem, List.getElem_map,
      List.getElem_enum]
  have e2 : (generate_shared_opportunity_nodes cos t pe).2.get ⟨i, hi2⟩ =
      ("OPPORTUNITY_" ++ toString (i + 1),
        pairSet ((sharedGroups cos t pe).get ⟨i, higrp⟩)) := by
    simp only [generate_shared_opportunity_nodes, List.get_eq_getElem, List.getElem_map,
      List.getElem_enum]
  have hcard : (pairSet ((sharedGroups cos t pe).get ⟨i, higrp⟩)).card = 2 :=
    Finset.card_pair hne
  have hmv : memberVecs pe ((sharedGroups cos t pe).get ⟨i, higrp⟩) =
      [lookupD pe ((sharedGroups cos t pe).get ⟨i, higrp⟩).1.1,
       lookupD pe ((sharedGroups cos t pe).get ⟨i, higrp⟩).2.1] := by
    unfold memberVecs
    rw [if_neg hne]
  obtain ⟨hvl, hvd⟩ := vecMean_two _ _ dim hl1 hl2
  refine ⟨by rw [e1], by rw [e2], by rw [e2]; exact hcard, ?_, ?_⟩
  · rw [e1]
    show (vecMean (memberVecs pe ((sharedGroups cos t pe).get ⟨i, higrp⟩))).length = dim
    rw [hmv]
    exact hvl
  · intro d hd
    rw [e1, e2]
    show (vecMean (memberVecs pe ((sharedGroups cos t pe).get ⟨i, higrp⟩))).getD d 0 =
      ((pairSet ((sharedGroups cos t pe).get ⟨i, higrp⟩)).sum
        (fun pid => (lookupD pe pid).getD d 0)) /
        (((pairSet ((sharedGroups cos t pe).get ⟨i, higrp⟩)).card : ℚ))
    rw [hmv, hvd d hd, hcard]
    unfold pairSet
    rw [Finset.sum_pair hne]
    norm_num

/-- Witness for opportunity_centroid_spec on a two-document batch of
one-dimensional embeddings. -/
theorem opportunity_centroid_spec_witness :
    (∀ kv ∈ ([("A", [1]), ("B", [2])] : List (String × List ℚ)), kv.2.length = 1) ∧
    ((([("A", [1]), ("B", [2])] : List (String × List ℚ)).map Prod.fst).Nodup) ∧
    ((generate_shared_opportunity_nodes cosConst (mkRat 35 100)
        [("A", [1]), ("B", [2])]).1.length =
      (generate_shared_opportunity_nodes cosConst (mkRat 35 100)
        [("A", [1]), ("B", [2])]).2.length ∧
    ∀ i, ∀ hi1 : i < (generate_shared_opportunity_nodes cosConst (mkRat 35 100)
        [("A", [1]), ("B", [2])]).1.length,
      ∀ hi2 : i < (generate_shared_opportunity_nodes cosConst (mkRat 35 100)
        [("A", [1]), ("B", [2])]).2.length,
      ((generate_shared_opportunity_nodes cosConst (mkRat 35 100)
        [("A", [1]), ("B", [2])]).1.get ⟨i, hi1⟩).id = "OPPORTUNITY_" ++ toString (i + 1) ∧
      ((generate_shared_opportunity_nodes cosConst (mkRat 35 100)
        [("A", [1]), ("B", [2])]).2.get ⟨i, hi2⟩).1 = "OPPORTUNITY_" ++ toString (i + 1) ∧
      ((generate_shared_opportunity_nodes cosConst (mkRat 35 100)
        [("A", [1]), ("B", [2])]).2.get ⟨i, hi2⟩).2.card = 2 ∧
      ((generate_shared_opportunity_nodes cosConst (mkRat 35 100)
        [("A", [1]), ("B", [2])]).1.get ⟨i, hi1⟩).embedding.length = 1 ∧
      ∀ d, d < 1 →
        ((generate_shared_opportunity_nodes cosConst (mkRat 35 100)
          [("A", [1]), ("B", [2])]).1.get ⟨i, hi1⟩).embedding.getD d 0 =
          (((generate_shared_opportunity_nodes cosConst (mkRat 35 100)
            [("A", [1]), ("B", [2])]).2.get ⟨i, hi2⟩).2.sum
            (fun pid => (lookupD [("A", [1]), ("B", [2])] pid).getD d 0)) /
            ((((generate_shared_opportunity_nodes cosConst (mkRat 35 100)
              [("A", [1]), ("B", [2])]).2.get ⟨i, hi2⟩).2.card : ℚ))) :=
  ⟨by decide, by decide,
   opportunity_centroid_spec cosConst (mkRat 35 100) [("A", [1]), ("B", [2])] 1
     (by decide) (by decide)⟩

end Patent2SDG
